import Mathlib

/-!
Verification of the weekly schedule reconciliation engine of the
`ms_team_streamlit` repository (a Streamlit team sign-up app).

The embedding is shallow: Python strings are lists of characters,
Python dicts are insertion-ordered association lists with the exact
mutation semantics of CPython dicts (assignment replaces in place,
`setdefault` appends), and the raw Firebase document is a JSON tree.
Calendar dates are integers counting days since 1970-01-01 (which was a
Thursday); Python's `date.weekday()` (Monday = 0) is derived from that
count.  All definitions are executable and kernel-reducible so that
concrete runs can be settled by `decide` / `rfl`.
-/

namespace MsTeam

/-- Python strings, modelled as lists of characters. -/
abbrev Str := List Char

/-- Python dicts with string keys: insertion-ordered association lists.
All operations below maintain CPython's semantics (unique keys,
assignment to an existing key keeps its position, new keys append). -/
abbrev Dict (α : Type) := List (Str × α)

/-- Lookup `d[k]`, as an option (first binding wins; the operations keep
keys unique, so there is at most one). -/
def dlookup {α : Type} : Dict α → Str → Option α
  | [], _ => none
  | (k', v) :: rest, k => if k' = k then some v else dlookup rest k

/-- Python `d.get(k, default)`. -/
def dgetD {α : Type} (d : Dict α) (k : Str) (v₀ : α) : α :=
  (dlookup d k).getD v₀

/-- Python `d[k] = v`: replace in place if the key exists, else append. -/
def dinsert {α : Type} : Dict α → Str → α → Dict α
  | [], k, v => [(k, v)]
  | (k', v') :: rest, k, v =>
      if k' = k then (k, v) :: rest else (k', v') :: dinsert rest k v

/-- Python `d.setdefault(k, v)` (the mutation part). -/
def dsetdefault {α : Type} (d : Dict α) (k : Str) (v : α) : Dict α :=
  match dlookup d k with
  | some _ => d
  | none => d ++ [(k, v)]

/-- The keys of a dict, in insertion order. -/
def dkeys {α : Type} (d : Dict α) : List Str := d.map Prod.fst

/-- Python dict equality `d1 == d2`: same key sets, equal values. -/
def pyDictEq {α : Type} [DecidableEq α] (d₁ d₂ : Dict α) : Bool :=
  (dkeys d₁).all (fun k => decide (k ∈ dkeys d₂)) &&
  (dkeys d₂).all (fun k => decide (k ∈ dkeys d₁)) &&
  (dkeys d₁).all (fun k => dlookup d₁ k = dlookup d₂ k)

/-- Python `dict.update`: apply every binding of `new` to `d` in order. -/
def dictUpdate {α : Type} (d new : Dict α) : Dict α :=
  new.foldl (fun acc kv => dinsert acc kv.1 kv.2) d

/-! ## Week Key Calculator (`get_start_of_week`)

`src/app.py` contains an unresolved merge conflict with two variants of
`get_start_of_week`; `src/pages/1_手動分隊.py` lines 52-54 repeats the
plain variant.  Dates are embedded as integers counting days since
1970-01-01 (a Thursday), so Python's `date.weekday()` (Monday = 0,
Thursday = 3) is `(d + 3) % 7`.  Subtracting `timedelta(days=n)` is
integer subtraction.  Lean's `%` on `Int` agrees with Python's `%` for
the positive modulus 7. -/

/-- Python `base_date.weekday()` for a day count since 1970-01-01. -/
def pyWeekday (d : Int) : Int := (d + 3) % 7

/-- The plain variant (the `ae27d7f` side of the merge conflict in
`src/app.py`, and `get_start_of_week` of `src/pages/1_手動分隊.py`):
`days_since_thu = (weekday - 3) % 7; return base_date - days_since_thu`. -/
def get_start_of_week (d : Int) : Int :=
  d - (pyWeekday d - 3) % 7

/-- The `HEAD` side of the merge conflict in `src/app.py`: same as the
plain variant, but if the date is a Monday the result is moved to the
following Thursday (`start + 7`), as its docstring documents. -/
def get_start_of_week_head (d : Int) : Int :=
  if pyWeekday d = 0 then d - (pyWeekday d - 3) % 7 + 7
  else d - (pyWeekday d - 3) % 7

/-! ## Slot Diff & Availability Reconciler

Embedding of the `captain_time_form` submit handler of `src/app.py`
(lines 739-767).  A `ScheduleRecord` is one entry of a team's
`schedules` map: the proposed time per day label, the availability per
slot key, and the finalized time. -/

/-- The sentinel key `UNAVAILABLE_KEY = "__UNAVAILABLE__"` (`src/app.py` line 34). -/
def UNAVAILABLE_KEY : Str := "__UNAVAILABLE__".data

/-- A slot key `f"{day} {time}"`. -/
def slotKey (day time : Str) : Str := day ++ ' ' :: time

/-- One week's `ScheduleRecord`: `proposed_slots`, `availability`,
`final_time`. -/
structure ScheduleRecord where
  proposed_slots : Dict Str
  availability : Dict (List Str)
  final_time : Str
deriving DecidableEq

/-- Python `c.isspace()` for the ASCII whitespace characters (`str.strip`
with no argument strips these). -/
def isPySpace (c : Char) : Bool :=
  c = ' ' || c = '\t' || c = '\n' || c = '\r' || c = '\x0b' || c = '\x0c'

/-- Python `s.strip()`: remove leading and trailing whitespace. -/
def pstrip (s : Str) : Str :=
  ((s.dropWhile isPySpace).reverse.dropWhile isPySpace).reverse

/-- The body of the per-day loop of the `更新時段` handler: carry a slot
forward unchanged if its time did not change, start a changed non-empty
slot with an empty member list, drop everything else. -/
def reconcileStep (oldSlots newSlots : Dict Str) (cur : Dict (List Str))
    (acc : Dict (List Str)) (day : Str) : Dict (List Str) :=
  let old_time := dgetD oldSlots day []
  let new_time := dgetD newSlots day []
  if old_time = new_time then
    if old_time ≠ [] then
      dinsert acc (slotKey day old_time) (dgetD cur (slotKey day old_time) [])
    else acc
  else
    if new_time ≠ [] then dinsert acc (slotKey day new_time) ([] : List Str)
    else acc

/-- The slot-diff reconciler (`src/app.py` lines 748-759): start from
`{UNAVAILABLE_KEY: current.get(UNAVAILABLE_KEY, [])}` and process the
displayed day labels in order. -/
def reconcile (days : List Str) (oldSlots newSlots : Dict Str)
    (cur : Dict (List Str)) : Dict (List Str) :=
  days.foldl (reconcileStep oldSlots newSlots cur)
    [(UNAVAILABLE_KEY, dgetD cur UNAVAILABLE_KEY [])]

/-- Line 740: `new_proposed_slots = {day: st.session_state[...].strip() for day in
displayed_schedule_days}` — the submitted per-day text inputs, stripped. -/
def newProposedSlots (days : List Str) (inputs : Str → Str) : Dict Str :=
  days.foldl (fun acc day => dinsert acc day (pstrip (inputs day))) []

/-- The `更新時段` submit handler (`src/app.py` lines 739-764): when the
submitted slots equal the stored ones (Python dict `==`) nothing is
written; otherwise the record gets the new slots, the reconciled
availability, and `final_time = ""`. -/
def captainTimeSubmit (rec : ScheduleRecord) (days : List Str)
    (inputs : Str → Str) : ScheduleRecord :=
  let new_proposed_slots := newProposedSlots days inputs
  if pyDictEq new_proposed_slots rec.proposed_slots then rec
  else
    { proposed_slots := new_proposed_slots,
      availability := reconcile days rec.proposed_slots new_proposed_slots
        rec.availability,
      final_time := [] }

/-! ### Which keys the reconciler's day loop writes -/

/-- Day `day` carries key `k` forward: its time is unchanged and
non-empty, and `k` is its slot key (the loop then copies the old member
list). -/
def carriesKey (oldSlots newSlots : Dict Str) (day k : Str) : Prop :=
  dgetD oldSlots day [] = dgetD newSlots day [] ∧
  dgetD oldSlots day [] ≠ [] ∧ k = slotKey day (dgetD oldSlots day [])

/-- Day `day` resets key `k`: its time changed to a non-empty value and
`k` is the new slot key (the loop then writes an empty member list). -/
def resetsKey (oldSlots newSlots : Dict Str) (day k : Str) : Prop :=
  dgetD oldSlots day [] ≠ dgetD newSlots day [] ∧
  dgetD newSlots day [] ≠ [] ∧ k = slotKey day (dgetD newSlots day [])

/-- Day `day` writes key `k` (either branch of the loop body). -/
def dayWritesKey (oldSlots newSlots : Dict Str) (day k : Str) : Prop :=
  carriesKey oldSlots newSlots day k ∨ resetsKey oldSlots newSlots day k

/-! ## Availability Collector

Embedding of the `availability_form` submit handler of `src/app.py`
(lines 772-815).  The per-slot multiselects are a function from slot
key to the submitted member list; the `都無法配合` multiselect is a
member list of its own. -/

/-- Line 772: `valid_proposed_times = [f"{day} {time}" for day in
displayed_schedule_days if (time := old_proposed_slots.get(day))]`
(line 772): slot keys of the days whose proposed time is truthy. -/
def validProposedTimes (days : List Str) (slots : Dict Str) : List Str :=
  days.filterMap fun day =>
    match dlookup slots day with
    | some t => if t ≠ [] then some (slotKey day t) else none
    | none => none

/-- The set `all_attending_members` (lines 796-800): every member selected in
some per-slot multiselect. -/
def attendingMembers (valid : List Str) (sels : Str → List Str) : List Str :=
  valid.foldl (fun acc ts => acc ++ sels ts) []

/-- The `儲存時間回報` submit handler (lines 794-811): build
`new_availability` from the per-slot multiselects, put the unavailable
selections minus every attending member under `UNAVAILABLE_KEY`, and
`dict.update` it into the stored availability.  (`data_path.setdefault
("availability", ...)` on line 810 is the identity here because the
record structure always carries the field.) -/
def availabilityFormSubmit (rec : ScheduleRecord) (days : List Str)
    (sels : Str → List Str) (unav : List Str) : ScheduleRecord :=
  let valid := validProposedTimes days rec.proposed_slots
  let new_availability :=
    valid.foldl (fun acc ts => dinsert acc ts (sels ts)) []
  let all_attending := attendingMembers valid sels
  let new_availability := dinsert new_availability UNAVAILABLE_KEY
    (unav.filter fun name => ¬ name ∈ all_attending)
  { rec with availability := dictUpdate rec.availability new_availability }

/-- The submitted availability map the handler writes for a given
record/day/selection configuration, before it is `update`d into the
stored one.  (Helper for stating the collector lemmas.) -/
def newAvailabilityOf (rec : ScheduleRecord) (days : List Str)
    (sels : Str → List Str) (unav : List Str) : Dict (List Str) :=
  dinsert
    ((validProposedTimes days rec.proposed_slots).foldl
      (fun acc ts => dinsert acc ts (sels ts)) [])
    UNAVAILABLE_KEY
    (unav.filter fun name =>
      ¬ name ∈ attendingMembers (validProposedTimes days rec.proposed_slots) sels)

/-! ### Concrete collector scenarios -/

/-- Two generated day labels (equal length, distinct). -/
def exDay1 : Str := "星期四 (01-01)".data

def exDay2 : Str := "星期五 (01-02)".data

def exDay3 : Str := "星期六 (01-03)".data

/-- A record with three proposed slots and a fresh availability map. -/
def exRec : ScheduleRecord :=
  { proposed_slots :=
      [(exDay1, "21:00".data), (exDay2, "20:00".data), (exDay3, "19:00".data)],
    availability := [(UNAVAILABLE_KEY, [])],
    final_time := [] }

def exDays : List Str := [exDay1, exDay2, exDay3]

/-- A submission selecting member `A` in every per-slot multiselect. -/
def exSelsAll : Str → List Str := fun _ => ["A".data]

/-! ## Finalizer

Embedding of the `final_time_form` submit handler of `src/app.py`
(lines 826-849).  The selectbox offers `"尚未決定"` plus
`f"{ts} ({len(current_availability.get(ts, []))}人可)"` for each valid
proposed time; on submit the handler recovers the slot key with
`re.match(r"^(.*?)\s*\(\d+人可\)$", selected_str)` and strips it.
The regex is modelled with its ASCII character classes: the lazy group
takes the least split whose remainder is whitespace, `"("`, one or
more digits, and `"人可)"` exactly — which is what the backtracking
engine computes, since `\s*`, `\d+` and the anchors leave it no
choices. -/

/-- The decimal digit characters of `f"{n}"` for a natural number,
written with a fuel argument (the number itself) so the recursion is
structural and kernel-reducible. -/
def natDigitsAux : Nat → Nat → List Char
  | 0, n => [Char.ofNat (48 + n % 10)]
  | fuel + 1, n =>
      if n < 10 then [Char.ofNat (48 + n % 10)]
      else natDigitsAux fuel (n / 10) ++ [Char.ofNat (48 + n % 10)]

def natDigits (n : Nat) : List Char := natDigitsAux n n

/-- The string `"尚未決定"`, the selectbox's first option. -/
def notDecided : Str := "尚未決定".data

/-- The selectbox options (line 827). -/
def optionsList (rec : ScheduleRecord) (days : List Str) : List Str :=
  notDecided ::
    (validProposedTimes days rec.proposed_slots).map fun ts =>
      ts ++ " (".data ++ natDigits (dgetD rec.availability ts []).length ++
        "人可)".data

/-- Does a remainder match `\s*\(\d+人可\)$`?  (Deterministic: `\s*`
must stop exactly at the `(`, and `\d+` must stop exactly before
`人可)`.) -/
def rmatchRest (r : Str) : Bool :=
  match r.dropWhile isPySpace with
  | [] => false
  | c :: r2 =>
      decide (c = '(') && decide (r2.takeWhile Char.isDigit ≠ []) &&
        decide (r2.drop (r2.takeWhile Char.isDigit).length = "人可)".data)

/-- The lazy group `^(.*?)` of the regex: try the shortest prefix whose
remainder matches `\s*\(\d+人可\)$`. -/
def rmatchAux (pre rest : Str) : Option Str :=
  if rmatchRest rest then some pre
  else
    match rest with
    | [] => none
    | c :: cs => rmatchAux (pre ++ [c]) cs

/-- Python `re.match(r"^(.*?)\s*\(\d+人可\)$", s)`, returning `group(1)`. -/
def regexMatchGroup1 (s : Str) : Option Str := rmatchAux [] s

/-- The value `final_time_to_save` (lines 841-845): `""` for `尚未決定` or a
non-matching option, else `match.group(1).strip()`. -/
def parseFinal (selected : Str) : Str :=
  if selected = notDecided then []
  else
    match regexMatchGroup1 selected with
    | some g => pstrip g
    | none => []

/-- The `確認最終時間` submit handler (lines 840-847): only
`final_time` changes. -/
def finalTimeSubmit (rec : ScheduleRecord) (selected : Str) : ScheduleRecord :=
  { rec with final_time := parseFinal selected }

/-! ### Concrete reconciler scenarios -/

/-- Slots with `exDay2`'s time changed from `20:00` to `22:00`. -/
def exNewSlots : Dict Str :=
  [(exDay1, "21:00".data), (exDay2, "22:00".data), (exDay3, "19:00".data)]

/-- A collected availability map: `A` can make `exDay1 21:00`, `B` can
make `exDay2 20:00`, `C` can make none. -/
def exCur : Dict (List Str) :=
  [(UNAVAILABLE_KEY, ["C".data]),
   (slotKey exDay1 "21:00".data, ["A".data]),
   (slotKey exDay2 "20:00".data, ["B".data])]

/-- Inputs that retype exactly the stored times. -/
def exInputsSame : Str → Str := fun d => dgetD exRec.proposed_slots d []

/-- Inputs that change only `exDay2`'s time. -/
def exInputsChange : Str → Str := fun d =>
  if d = exDay2 then "22:00".data else dgetD exRec.proposed_slots d []

/-- The concrete record with a finalized time (`exDay1`'s slot). -/
def exRecFinal : ScheduleRecord :=
  { exRec with final_time := slotKey exDay1 "21:00".data }

/-! ## Schema Migrator (`load_data`)

Embedding of `load_data` of `src/app.py` (lines 105-174).  The raw
Firebase document is a JSON tree; Python dict operations on it are the
`Dict` operations above (with `Json` values).  Operations that would
raise in Python (`.pop`/`.setdefault`/`.items()` on a non-dict value,
iterating a non-list `teams` entry) are `Except.error`; the whole body
sits inside one `try`, whose `except` returns
`{"teams": [], "members": {}}`.  The two valid week keys (computed in
the source from `date.today()`) are passed in as parameters. -/

inductive Json where
  | null
  | bool (b : Bool)
  | num (n : Int)
  | str (s : Str)
  | arr (elems : List Json)
  | obj (fields : List (Str × Json))

/-- The fields of a JSON object (`[]` for any other shape). -/
def objFields : Json → List (Str × Json)
  | .obj fs => fs
  | _ => []

/-- Python `d.pop(k)` (the removal part; `dlookup` gives the value). -/
def dremove {α : Type} : Dict α → Str → Dict α
  | [], _ => []
  | (k', v) :: rest, k =>
      if k' = k then rest else (k', v) :: dremove rest k

/-- The record `get_default_schedule_for_week()` as a JSON value. -/
def defaultScheduleJson : Json :=
  .obj [("proposed_slots".data, .obj []),
        ("availability".data, .obj [(UNAVAILABLE_KEY, .arr [])]),
        ("final_time".data, .str [])]

/-- A stand-in week key for a legacy `schedule_start_date` that is not
a string (Python would key the dict by the raw value, which can never
equal a week-key string and is pruned on the next step; the stand-in
label, a NUL character, is likewise never a week key). -/
def nonStrKeyMarker : Str := ['\x00']

/-- Lines 147-154: make sure one required week key is present and its
record has all three fields (`setdefault` backfill); raises when the
present record is not a dict. -/
def ensureWeek (managed : Dict Json) (wk : Str) : Except Unit (Dict Json) :=
  match dlookup managed wk with
  | none => Except.ok (dinsert managed wk defaultScheduleJson)
  | some v =>
      match v with
      | .obj rf =>
          Except.ok (dinsert managed wk (.obj
            (dsetdefault
              (dsetdefault
                (dsetdefault rf "proposed_slots".data (.obj []))
                "availability".data (.obj [(UNAVAILABLE_KEY, .arr [])]))
              "final_time".data (.str []))))
      | _ => Except.error ()

/-- Lines 158-162: migrate the legacy `boss_times` field into
`team_remark`. -/
def bossRemark (tf : Dict Json) : Dict Json :=
  match dlookup tf "boss_times".data, dlookup tf "team_remark".data with
  | some bt, none =>
      dinsert (dremove tf "boss_times".data) "team_remark".data bt
  | _, _ => dsetdefault tf "team_remark".data (.str [])

/-- Lines 139-162: prune the week keys that are not one of the two
valid ones, backfill the two valid ones, write the managed schedule
map back, handle `boss_times`.  `tf₁` is the team's field dict after
the legacy-`schedule` wrap. -/
def processTeamCore (thisW nextW : Str) (tf₁ : Dict Json) : Except Unit Json :=
  let tf := dsetdefault tf₁ "schedules".data (.obj [])
  match (dlookup tf "schedules".data).getD (.obj []) with
  | .obj cs =>
      match ensureWeek
          (cs.filter fun kv => decide (kv.1 = thisW) || decide (kv.1 = nextW))
          thisW with
      | .error e => .error e
      | .ok m₁ =>
          match ensureWeek m₁ nextW with
          | .error e => .error e
          | .ok m₂ =>
              .ok (.obj (bossRemark (dinsert tf "schedules".data (.obj m₂))))
  | _ => .error ()

/-- Lines 132-162: migrate one team's record (legacy `schedule` wrap,
then the core pruning/backfill). -/
def processTeam (thisW nextW : Str) (team : Json) : Except Unit Json :=
  match team with
  | .obj tf₀ =>
      match dlookup tf₀ "schedule".data, dlookup tf₀ "schedules".data with
      | some oldSched, none =>
          match oldSched with
          | .obj osf =>
              processTeamCore thisW nextW
                (dinsert (dremove tf₀ "schedule".data) "schedules".data
                  (.obj [((match (dlookup osf "schedule_start_date".data).getD
                        (.str thisW) with
                      | .str s => s
                      | _ => nonStrKeyMarker),
                    .obj (dremove osf "schedule_start_date".data))]))
          | _ => .error ()
      | _, _ => processTeamCore thisW nextW tf₀
  | _ => .error ()

/-- The `for team in data["teams"]` loop; the first raising team aborts
the whole `try` body. -/
def processTeams (thisW nextW : Str) : List Json → Except Unit (List Json)
  | [] => .ok []
  | t :: ts =>
      match processTeam thisW nextW t with
      | .error e => .error e
      | .ok t' =>
          match processTeams thisW nextW ts with
          | .error e => .error e
          | .ok ts' => .ok (t' :: ts')

/-- The document `{"teams": [], "members": {}}`, returned for an absent document and
by the `except` handler. -/
def emptyDoc : Json := .obj [("teams".data, .arr []), ("members".data, .obj [])]

/-- The `try` body of `load_data`. -/
def loadDataE (raw : Option Json) (thisW nextW : Str) : Except Unit Json :=
  match raw with
  | none => .ok emptyDoc
  | some d =>
      match d with
      | .obj df =>
          let df := dsetdefault (dsetdefault df "teams".data (.arr []))
            "members".data (.obj [])
          match dlookup df "teams".data with
          | some (.arr ts) =>
              match processTeams thisW nextW ts with
              | .error e => .error e
              | .ok ts' => .ok (.obj (dinsert df "teams".data (.arr ts')))
          | _ => .error ()
      | _ => .error ()

/-- Function `load_data`: the `try` body with the catch-all `except` that
returns the empty default document. -/
def load_data (raw : Option Json) (thisW nextW : Str) : Json :=
  match loadDataE raw thisW nextW with
  | .ok j => j
  | .error _ => emptyDoc

/-- The teams list of an input document, as `load_data` reads it. -/
def rawTeams (raw : Json) : List Json :=
  match raw with
  | .obj df =>
      match dlookup df "teams".data with
      | some (.arr ts) => ts
      | _ => []
  | _ => []

/-- The teams list of an output document. -/
def teamsOf (doc : Json) : List Json :=
  match dlookup (objFields doc) "teams".data with
  | some (.arr ts) => ts
  | _ => []

/-- A team's raw `schedules` object fields, as the migrator reads them
when no legacy wrap applies. -/
def teamSchedFields (tj : Json) : List (Str × Json) :=
  objFields ((dlookup (objFields tj) "schedules".data).getD (.obj []))

/-! ### Concrete migrator scenarios -/

def exThisW : Str := "2025-10-09".data

def exNextW : Str := "2025-10-16".data

/-- A team whose legacy `schedule` field is a bare string: Python's
`old_schedule.pop(...)` raises `AttributeError` on it. -/
def exBadTeam : Json := .obj [("schedule".data, .str "oops".data)]

/-- A perfectly well-formed (empty) team record. -/
def exGoodTeam : Json := .obj []

/-- A raw document with one good team, one malformed team, and one
registered member. -/
def exRawDoc : Json :=
  .obj [("teams".data, .arr [exGoodTeam, exBadTeam]),
        ("members".data, .obj [("A".data, .obj [])])]

/-- A raw document whose single team is well-formed, used to run the
migrator to completion. -/
def exRawDoc2 : Json :=
  .obj [("teams".data, .arr [exGoodTeam]), ("members".data, .obj [])]

section DictLemmas

variable {α : Type}

theorem dlookup_dinsert_self (d : Dict α) (k : Str) (v : α) :
    dlookup (dinsert d k v) k = some v := by
  induction d with
  | nil => simp [dinsert, dlookup]
  | cons hd tl ih =>
      obtain ⟨k', v'⟩ := hd
      by_cases h : k' = k
      · rw [dinsert, if_pos h, dlookup, if_pos rfl]
      · rw [dinsert, if_neg h, dlookup, if_neg h, ih]

theorem dlookup_dinsert_ne (d : Dict α) (k k' : Str) (v : α) (h : k' ≠ k) :
    dlookup (dinsert d k v) k' = dlookup d k' := by
  have h' : k ≠ k' := fun hh => h hh.symm
  induction d with
  | nil =>
      show (if k = k' then some v else dlookup [] k') = dlookup [] k'
      rw [if_neg h']
  | cons hd tl ih =>
      obtain ⟨k₀, v₀⟩ := hd
      by_cases h0 : k₀ = k
      · subst h0
        rw [dinsert, if_pos rfl, dlookup, if_neg h', dlookup, if_neg h']
      · rw [dinsert, if_neg h0, dlookup, dlookup]
        by_cases h1 : k₀ = k'
        · rw [if_pos h1, if_pos h1]
        · rw [if_neg h1, if_neg h1, ih]

theorem mem_dkeys_dinsert (d : Dict α) (k k' : Str) (v : α) :
    k' ∈ dkeys (dinsert d k v) ↔ k' = k ∨ k' ∈ dkeys d := by
  induction d with
  | nil => simp [dinsert, dkeys]
  | cons hd tl ih =>
      obtain ⟨k₀, v₀⟩ := hd
      by_cases h0 : k₀ = k
      · subst h0
        rw [dinsert, if_pos rfl]
        simp only [dkeys, List.map_cons, List.mem_cons]
        tauto
      · rw [dinsert, if_neg h0]
        simp only [dkeys, List.map_cons, List.mem_cons] at ih ⊢
        tauto

theorem dkeys_nodup_dinsert (d : Dict α) (k : Str) (v : α)
    (h : (dkeys d).Nodup) : (dkeys (dinsert d k v)).Nodup := by
  induction d with
  | nil => simp [dinsert, dkeys]
  | cons hd tl ih =>
      obtain ⟨k₀, v₀⟩ := hd
      simp only [dkeys, List.map_cons, List.nodup_cons] at h
      by_cases h0 : k₀ = k
      · subst h0
        rw [dinsert, if_pos rfl]
        simp only [dkeys, List.map_cons, List.nodup_cons]
        exact h
      · rw [dinsert, if_neg h0]
        simp only [dkeys, List.map_cons, List.nodup_cons]
        refine ⟨fun hmem => ?_, ih h.2⟩
        rw [show (dinsert tl k v).map Prod.fst = dkeys (dinsert tl k v) from rfl,
          mem_dkeys_dinsert] at hmem
        rcases hmem with h1 | h1
        · exact h0 h1
        · exact h.1 h1

end DictLemmas

/-- C5 (counterexample): day 4 since the epoch is 1970-01-05, a Monday.
The `HEAD` variant of `get_start_of_week` maps it to the *following*
Thursday (day 7), so the claimed `startOfWindow(d) ≤ d` fails on
Mondays for that variant. -/
theorem get_start_of_week_head_monday_after :
    pyWeekday 4 = 0 ∧ get_start_of_week_head 4 = 7 ∧
      ¬ get_start_of_week_head 4 ≤ 4 := by
  refine ⟨by decide, by decide, by decide⟩

/-- C5 (amended): the plain variant returns the most recent Thursday on
or before `d` (weekday 3, with `start ≤ d < start + 7`) and is
idempotent, for every date including Mondays.  The `HEAD` variant
equals the plain variant except on Mondays, where it adds 7 days
(landing on the Thursday three days *after* `d`); it still always
returns a Thursday and is idempotent. -/
theorem get_start_of_week_spec (d : Int) :
    pyWeekday (get_start_of_week d) = 3 ∧
    get_start_of_week d ≤ d ∧
    d < get_start_of_week d + 7 ∧
    get_start_of_week (get_start_of_week d) = get_start_of_week d ∧
    get_start_of_week_head d =
      (if pyWeekday d = 0 then get_start_of_week d + 7 else get_start_of_week d) ∧
    pyWeekday (get_start_of_week_head d) = 3 ∧
    get_start_of_week_head (get_start_of_week_head d) = get_start_of_week_head d := by
  unfold get_start_of_week get_start_of_week_head pyWeekday
  refine ⟨by omega, by omega, by omega, by omega, ?_, ?_, ?_⟩
  · split <;> omega
  · split <;> omega
  · split <;> split <;> omega

/-- C3: a no-op edit (the submitted slots are dict-equal to the stored
ones) leaves the stored `ScheduleRecord` — all three fields — entirely
unchanged; no availability data is lost or altered. -/
theorem captainTimeSubmit_noop (rec : ScheduleRecord) (days : List Str)
    (inputs : Str → Str)
    (h : pyDictEq (newProposedSlots days inputs) rec.proposed_slots = true) :
    captainTimeSubmit rec days inputs = rec := by
  rw [captainTimeSubmit]
  simp only [h, if_true]

/-- C10: whenever the submitted slots differ from the stored ones (so
the update actually runs), `final_time` is reset to the empty string
unconditionally — even if the previously finalized slot would still be
derivable from the new slots. -/
theorem captainTimeSubmit_resets_final_time (rec : ScheduleRecord)
    (days : List Str) (inputs : Str → Str)
    (h : pyDictEq (newProposedSlots days inputs) rec.proposed_slots = false) :
    (captainTimeSubmit rec days inputs).final_time = [] := by
  rw [captainTimeSubmit]
  simp only [h, Bool.false_eq_true, if_false]

theorem dayWritesKey_iff (oldSlots newSlots : Dict Str) (day k : Str) :
    dayWritesKey oldSlots newSlots day k ↔
      dgetD newSlots day [] ≠ [] ∧ k = slotKey day (dgetD newSlots day []) := by
  constructor
  · rintro (⟨heq, hne, hk⟩ | ⟨_, hne, hk⟩)
    · exact ⟨heq ▸ hne, heq ▸ hk⟩
    · exact ⟨hne, hk⟩
  · rintro ⟨hne, hk⟩
    by_cases heq : dgetD oldSlots day [] = dgetD newSlots day []
    · exact Or.inl ⟨heq, heq ▸ hne, heq ▸ hk⟩
    · exact Or.inr ⟨heq, hne, hk⟩

theorem reconcileStep_lookup_of_not_writes (oldSlots newSlots : Dict Str)
    (cur acc : Dict (List Str)) (day k : Str)
    (h : ¬ dayWritesKey oldSlots newSlots day k) :
    dlookup (reconcileStep oldSlots newSlots cur acc day) k = dlookup acc k := by
  rw [reconcileStep]
  split
  · next heq =>
      split
      · next hne =>
          refine dlookup_dinsert_ne _ _ _ _ fun hk => h (Or.inl ⟨heq, hne, hk⟩)
      · rfl
  · next heq =>
      split
      · next hne =>
          refine dlookup_dinsert_ne _ _ _ _ fun hk => h (Or.inr ⟨heq, hne, hk⟩)
      · rfl

theorem reconcileStep_lookup_of_carries (oldSlots newSlots : Dict Str)
    (cur acc : Dict (List Str)) (day k : Str)
    (h : carriesKey oldSlots newSlots day k) :
    dlookup (reconcileStep oldSlots newSlots cur acc day) k =
      some (dgetD cur k []) := by
  obtain ⟨heq, hne, hk⟩ := h
  subst hk
  simp only [reconcileStep]
  rw [if_pos heq, if_pos hne]
  exact dlookup_dinsert_self _ _ _

theorem reconcileStep_lookup_of_resets (oldSlots newSlots : Dict Str)
    (cur acc : Dict (List Str)) (day k : Str)
    (h : resetsKey oldSlots newSlots day k) :
    dlookup (reconcileStep oldSlots newSlots cur acc day) k = some [] := by
  obtain ⟨heq, hne, hk⟩ := h
  rw [reconcileStep]
  rw [if_neg heq, if_pos hne, hk, dlookup_dinsert_self]

theorem foldl_reconcileStep_lookup_of_not_writes (oldSlots newSlots : Dict Str)
    (cur : Dict (List Str)) (days : List Str) (acc : Dict (List Str)) (k : Str)
    (h : ∀ d ∈ days, ¬ dayWritesKey oldSlots newSlots d k) :
    dlookup (days.foldl (reconcileStep oldSlots newSlots cur) acc) k =
      dlookup acc k := by
  induction days generalizing acc with
  | nil => rfl
  | cons hd tl ih =>
      rw [List.foldl_cons, ih _ fun d hm => h d (List.mem_cons_of_mem _ hm),
        reconcileStep_lookup_of_not_writes _ _ _ _ _ _ (h hd (List.mem_cons_self _ _))]

theorem foldl_reconcileStep_lookup_stable_carry (oldSlots newSlots : Dict Str)
    (cur : Dict (List Str)) (days : List Str) (acc : Dict (List Str)) (k : Str)
    (hval : dlookup acc k = some (dgetD cur k []))
    (hnores : ∀ d ∈ days, ¬ resetsKey oldSlots newSlots d k) :
    dlookup (days.foldl (reconcileStep oldSlots newSlots cur) acc) k =
      some (dgetD cur k []) := by
  induction days generalizing acc with
  | nil => exact hval
  | cons hd tl ih =>
      rw [List.foldl_cons]
      refine ih _ ?_ fun d hm => hnores d (List.mem_cons_of_mem _ hm)
      by_cases hc : carriesKey oldSlots newSlots hd k
      · exact reconcileStep_lookup_of_carries _ _ _ _ _ _ hc
      · rw [reconcileStep_lookup_of_not_writes _ _ _ _ _ _ ?_, hval]
        rintro (h | h)
        · exact hc h
        · exact hnores hd (List.mem_cons_self _ _) h

theorem foldl_reconcileStep_lookup_of_carries (oldSlots newSlots : Dict Str)
    (cur : Dict (List Str)) (days : List Str) (acc : Dict (List Str)) (k : Str)
    (hex : ∃ d ∈ days, carriesKey oldSlots newSlots d k)
    (hnores : ∀ d ∈ days, ¬ resetsKey oldSlots newSlots d k) :
    dlookup (days.foldl (reconcileStep oldSlots newSlots cur) acc) k =
      some (dgetD cur k []) := by
  induction days generalizing acc with
  | nil => exact absurd hex (by simp)
  | cons hd tl ih =>
      rw [List.foldl_cons]
      by_cases hc : carriesKey oldSlots newSlots hd k
      · refine foldl_reconcileStep_lookup_stable_carry _ _ _ _ _ _ ?_
          fun d hm => hnores d (List.mem_cons_of_mem _ hm)
        exact reconcileStep_lookup_of_carries _ _ _ _ _ _ hc
      · obtain ⟨d, hdm, hdc⟩ := hex
        rcases List.mem_cons.mp hdm with rfl | hdm
        · exact absurd hdc hc
        · exact ih _ ⟨d, hdm, hdc⟩ fun d' hm => hnores d' (List.mem_cons_of_mem _ hm)

theorem foldl_reconcileStep_lookup_stable_reset (oldSlots newSlots : Dict Str)
    (cur : Dict (List Str)) (days : List Str) (acc : Dict (List Str)) (k : Str)
    (hval : dlookup acc k = some [])
    (hnocar : ∀ d ∈ days, ¬ carriesKey oldSlots newSlots d k) :
    dlookup (days.foldl (reconcileStep oldSlots newSlots cur) acc) k =
      some [] := by
  induction days generalizing acc with
  | nil => exact hval
  | cons hd tl ih =>
      rw [List.foldl_cons]
      refine ih _ ?_ fun d hm => hnocar d (List.mem_cons_of_mem _ hm)
      by_cases hr : resetsKey oldSlots newSlots hd k
      · exact reconcileStep_lookup_of_resets _ _ _ _ _ _ hr
      · rw [reconcileStep_lookup_of_not_writes _ _ _ _ _ _ ?_, hval]
        rintro (h | h)
        · exact hnocar hd (List.mem_cons_self _ _) h
        · exact hr h

theorem foldl_reconcileStep_lookup_of_resets (oldSlots newSlots : Dict Str)
    (cur : Dict (List Str)) (days : List Str) (acc : Dict (List Str)) (k : Str)
    (hex : ∃ d ∈ days, resetsKey oldSlots newSlots d k)
    (hnocar : ∀ d ∈ days, ¬ carriesKey oldSlots newSlots d k) :
    dlookup (days.foldl (reconcileStep oldSlots newSlots cur) acc) k =
      some [] := by
  induction days generalizing acc with
  | nil => exact absurd hex (by simp)
  | cons hd tl ih =>
      rw [List.foldl_cons]
      by_cases hr : resetsKey oldSlots newSlots hd k
      · refine foldl_reconcileStep_lookup_stable_reset _ _ _ _ _ _ ?_
          fun d hm => hnocar d (List.mem_cons_of_mem _ hm)
        exact reconcileStep_lookup_of_resets _ _ _ _ _ _ hr
      · obtain ⟨d, hdm, hdr⟩ := hex
        rcases List.mem_cons.mp hdm with rfl | hdm
        · exact absurd hdr hr
        · exact ih _ ⟨d, hdm, hdr⟩ fun d' hm => hnocar d' (List.mem_cons_of_mem _ hm)

/-! ### Slot keys are injective over equal-length day labels -/

theorem slotKey_inj {d1 d2 t1 t2 : Str} (hlen : d1.length = d2.length)
    (h : slotKey d1 t1 = slotKey d2 t2) : d1 = d2 ∧ t1 = t2 := by
  unfold slotKey at h
  obtain ⟨h1, h2⟩ := List.append_inj h hlen
  exact ⟨h1, by injection h2⟩

theorem space_mem_slotKey (d t : Str) : ' ' ∈ slotKey d t := by
  simp [slotKey]

theorem unavailable_ne_slotKey (d t : Str) : UNAVAILABLE_KEY ≠ slotKey d t := by
  intro h
  have hmem : ' ' ∈ UNAVAILABLE_KEY := h ▸ space_mem_slotKey d t
  exact absurd hmem (by decide)

/-- C1: if exactly one day label `d0` changes its time string between
the old and new proposed slots, then in the reconciled availability
(a) the `UNAVAILABLE` sentinel list is exactly the old one,
(b) every other day's non-empty slot keeps exactly its old member list
under the same slot key, (c) `d0`'s new slot key (when its new time is
non-empty) starts with the empty member list, and (d) `d0`'s old slot
key (when its old time was non-empty) is removed.  Day labels are
assumed pairwise distinct and of equal length, as the generated
`星期X (MM-DD)` labels are. -/
theorem reconcile_single_change (days : List Str) (L : Nat)
    (oldSlots newSlots : Dict Str) (cur : Dict (List Str)) (d0 : Str)
    (hlen : ∀ d ∈ days, d.length = L) (hd0 : d0 ∈ days)
    (hchanged : dgetD oldSlots d0 [] ≠ dgetD newSlots d0 [])
    (hothers : ∀ d ∈ days, d ≠ d0 → dgetD oldSlots d [] = dgetD newSlots d []) :
    dlookup (reconcile days oldSlots newSlots cur) UNAVAILABLE_KEY
        = some (dgetD cur UNAVAILABLE_KEY []) ∧
    (∀ d ∈ days, d ≠ d0 → dgetD oldSlots d [] ≠ [] →
      dlookup (reconcile days oldSlots newSlots cur)
          (slotKey d (dgetD oldSlots d []))
        = some (dgetD cur (slotKey d (dgetD oldSlots d [])) [])) ∧
    (dgetD newSlots d0 [] ≠ [] →
      dlookup (reconcile days oldSlots newSlots cur)
          (slotKey d0 (dgetD newSlots d0 []))
        = some []) ∧
    (dgetD oldSlots d0 [] ≠ [] →
      dlookup (reconcile days oldSlots newSlots cur)
          (slotKey d0 (dgetD oldSlots d0 []))
        = none) := by
  refine ⟨?_, ?_, ?_, ?_⟩
  · rw [reconcile, foldl_reconcileStep_lookup_of_not_writes]
    · rw [dlookup, if_pos rfl]
    · intro d _ hw
      rcases (dayWritesKey_iff _ _ _ _).mp hw with ⟨_, hk⟩
      exact unavailable_ne_slotKey _ _ hk
  · intro d hdm hne hno
    rw [reconcile, foldl_reconcileStep_lookup_of_carries]
    · exact ⟨d, hdm, hothers d hdm hne, hno, rfl⟩
    · rintro d' hd'm ⟨hne', _, hk⟩
      obtain ⟨hdd, ht⟩ := slotKey_inj ((hlen d hdm).trans (hlen d' hd'm).symm) hk
      subst hdd
      exact hne' (hothers d hdm hne)
  · intro hno
    rw [reconcile, foldl_reconcileStep_lookup_of_resets]
    · exact ⟨d0, hd0, hchanged, hno, rfl⟩
    · rintro d' hd'm ⟨heq', _, hk⟩
      obtain ⟨hdd, ht⟩ := slotKey_inj ((hlen d0 hd0).trans (hlen d' hd'm).symm) hk
      subst hdd
      exact hchanged ht.symm
  · intro hno
    rw [reconcile, foldl_reconcileStep_lookup_of_not_writes]
    · rw [dlookup, if_neg (unavailable_ne_slotKey _ _), dlookup]
    · intro d hdm hw
      rcases hw with ⟨heq', _, hk⟩ | ⟨_, _, hk⟩
      · obtain ⟨hdd, ht⟩ := slotKey_inj ((hlen d0 hd0).trans (hlen d hdm).symm) hk
        subst hdd
        exact hchanged (ht.symm.trans heq')
      · obtain ⟨hdd, ht⟩ := slotKey_inj ((hlen d0 hd0).trans (hlen d hdm).symm) hk
        subst hdd
        exact hchanged ht

theorem mem_dkeys_reconcileStep (oldSlots newSlots : Dict Str)
    (cur acc : Dict (List Str)) (day k : Str) :
    k ∈ dkeys (reconcileStep oldSlots newSlots cur acc day) ↔
      dayWritesKey oldSlots newSlots day k ∨ k ∈ dkeys acc := by
  simp only [reconcileStep]
  split
  · next heq =>
      split
      · next hne =>
          rw [mem_dkeys_dinsert]
          constructor
          · rintro (hk | hm)
            · exact Or.inl (Or.inl ⟨heq, hne, hk⟩)
            · exact Or.inr hm
          · rintro ((⟨_, _, hk⟩ | ⟨hne', _, _⟩) | hm)
            · exact Or.inl hk
            · exact absurd heq hne'
            · exact Or.inr hm
      · next hne =>
          rw [not_not] at hne
          constructor
          · exact Or.inr
          · rintro ((⟨_, hne', _⟩ | ⟨hne', _, _⟩) | hm)
            · exact absurd hne hne'
            · exact absurd heq hne'
            · exact hm
  · next heq =>
      split
      · next hne =>
          rw [mem_dkeys_dinsert]
          constructor
          · rintro (hk | hm)
            · exact Or.inl (Or.inr ⟨heq, hne, hk⟩)
            · exact Or.inr hm
          · rintro ((⟨heq', _, _⟩ | ⟨_, _, hk⟩) | hm)
            · exact absurd heq' heq
            · exact Or.inl hk
            · exact Or.inr hm
      · next hne =>
          rw [not_not] at hne
          constructor
          · exact Or.inr
          · rintro ((⟨heq', _, _⟩ | ⟨_, hne', _⟩) | hm)
            · exact absurd heq' heq
            · exact absurd hne hne'
            · exact hm

theorem mem_dkeys_foldl_reconcileStep (oldSlots newSlots : Dict Str)
    (cur : Dict (List Str)) (days : List Str) (acc : Dict (List Str)) (k : Str) :
    k ∈ dkeys (days.foldl (reconcileStep oldSlots newSlots cur) acc) ↔
      (∃ d ∈ days, dayWritesKey oldSlots newSlots d k) ∨ k ∈ dkeys acc := by
  induction days generalizing acc with
  | nil => simp
  | cons hd tl ih =>
      rw [List.foldl_cons, ih, mem_dkeys_reconcileStep]
      constructor
      · rintro (⟨d, hm, hw⟩ | hw | hm)
        · exact Or.inl ⟨d, List.mem_cons_of_mem _ hm, hw⟩
        · exact Or.inl ⟨hd, List.mem_cons_self _ _, hw⟩
        · exact Or.inr hm
      · rintro (⟨d, hm, hw⟩ | hm)
        · rcases List.mem_cons.mp hm with rfl | hm
          · exact Or.inr (Or.inl hw)
          · exact Or.inl ⟨d, hm, hw⟩
        · exact Or.inr (Or.inr hm)

/-- C2: after any run of the slot-diff reconciler, the key set of the
produced availability map is exactly the slot keys derivable from the
new proposed slots (day labels with a non-empty new time) plus the
`UNAVAILABLE` sentinel — no orphan keys from the old availability
survive and no non-empty new slot lacks a key. -/
theorem reconcile_keys (days : List Str) (oldSlots newSlots : Dict Str)
    (cur : Dict (List Str)) (k : Str) :
    k ∈ dkeys (reconcile days oldSlots newSlots cur) ↔
      k = UNAVAILABLE_KEY ∨
      ∃ d ∈ days, dgetD newSlots d [] ≠ [] ∧
        k = slotKey d (dgetD newSlots d []) := by
  rw [reconcile, mem_dkeys_foldl_reconcileStep]
  have hinit : k ∈ dkeys [(UNAVAILABLE_KEY, dgetD cur UNAVAILABLE_KEY [])] ↔
      k = UNAVAILABLE_KEY := by
    simp [dkeys, eq_comm]
  rw [hinit]
  constructor
  · rintro (⟨d, hm, hw⟩ | hu)
    · exact Or.inr ⟨d, hm, (dayWritesKey_iff _ _ _ _).mp hw⟩
    · exact Or.inl hu
  · rintro (hu | ⟨d, hm, hw⟩)
    · exact Or.inr hu
    · exact Or.inl ⟨d, hm, (dayWritesKey_iff _ _ _ _).mpr hw⟩

section CollectorLemmas

theorem dlookup_eq_none_iff {α : Type} (d : Dict α) (k : Str) :
    dlookup d k = none ↔ k ∉ dkeys d := by
  induction d with
  | nil => exact ⟨fun _ => List.not_mem_nil k, fun _ => rfl⟩
  | cons hd tl ih =>
      obtain ⟨k₀, v₀⟩ := hd
      by_cases h0 : k₀ = k
      · subst h0
        constructor
        · intro h
          rw [dlookup, if_pos rfl] at h
          cases h
        · intro h
          exact absurd (List.mem_cons_self k₀ (dkeys tl)) h
      · rw [dlookup, if_neg h0]
        simp only [dkeys, List.map_cons, List.mem_cons] at ih ⊢
        rw [ih]
        constructor
        · rintro h (h1 | h1)
          · exact h0 h1.symm
          · exact h h1
        · exact fun h h1 => h (Or.inr h1)

theorem dlookup_foldl_dinsert (f : Str → List Str) (l : List Str)
    (acc : Dict (List Str)) (k : Str) :
    dlookup (l.foldl (fun a ts => dinsert a ts (f ts)) acc) k =
      if k ∈ l then some (f k) else dlookup acc k := by
  induction l generalizing acc with
  | nil => simp
  | cons hd tl ih =>
      rw [List.foldl_cons, ih]
      by_cases hm : k ∈ tl
      · rw [if_pos hm, if_pos (List.mem_cons_of_mem _ hm)]
      · rw [if_neg hm]
        by_cases hk : k = hd
        · subst hk
          rw [if_pos (List.mem_cons_self _ _), dlookup_dinsert_self]
        · rw [dlookup_dinsert_ne _ _ _ _ hk, if_neg]
          simp only [List.mem_cons]
          tauto

theorem dkeys_nodup_foldl_dinsert (f : Str → List Str) (l : List Str)
    (acc : Dict (List Str)) (h : (dkeys acc).Nodup) :
    (dkeys (l.foldl (fun a ts => dinsert a ts (f ts)) acc)).Nodup := by
  induction l generalizing acc with
  | nil => exact h
  | cons hd tl ih => exact ih _ (dkeys_nodup_dinsert _ _ _ h)

theorem mem_foldl_append (sels : Str → List Str) (l : List Str)
    (acc : List Str) (m : Str) :
    m ∈ l.foldl (fun a t => a ++ sels t) acc ↔
      m ∈ acc ∨ ∃ ts ∈ l, m ∈ sels ts := by
  induction l generalizing acc with
  | nil => simp
  | cons hd tl ih =>
      rw [List.foldl_cons, ih]
      simp only [List.mem_append, List.mem_cons]
      constructor
      · rintro ((h | h) | ⟨ts, hts, h⟩)
        · exact Or.inl h
        · exact Or.inr ⟨hd, Or.inl rfl, h⟩
        · exact Or.inr ⟨ts, Or.inr hts, h⟩
      · rintro (h | ⟨ts, rfl | hts, h⟩)
        · exact Or.inl (Or.inl h)
        · exact Or.inl (Or.inr h)
        · exact Or.inr ⟨ts, hts, h⟩

theorem mem_attendingMembers_of (valid : List Str) (sels : Str → List Str)
    (ts : Str) (m : Str) (hts : ts ∈ valid) (hm : m ∈ sels ts) :
    m ∈ attendingMembers valid sels := by
  rw [attendingMembers, mem_foldl_append]
  exact Or.inr ⟨ts, hts, hm⟩

theorem dlookup_dictUpdate {α : Type} (d new : Dict α) (k : Str)
    (hnd : (dkeys new).Nodup) :
    dlookup (dictUpdate d new) k =
      match dlookup new k with
      | some v => some v
      | none => dlookup d k := by
  induction new generalizing d with
  | nil => rfl
  | cons hd rest ih =>
      obtain ⟨k₀, v₀⟩ := hd
      simp only [dkeys, List.map_cons, List.nodup_cons] at hnd
      rw [dictUpdate, List.foldl_cons]
      rw [show rest.foldl (fun acc kv => dinsert acc kv.1 kv.2)
        (dinsert d k₀ v₀) = dictUpdate (dinsert d k₀ v₀) rest from rfl]
      rw [ih _ hnd.2]
      by_cases hk : k₀ = k
      · subst hk
        have hrest : dlookup rest k₀ = none :=
          (dlookup_eq_none_iff _ _).mpr hnd.1
        rw [dlookup, if_pos rfl, hrest, dlookup_dinsert_self]
      · rw [dlookup, if_neg hk]
        cases dlookup rest k with
        | some v => rfl
        | none => exact dlookup_dinsert_ne _ _ _ _ fun h => hk h.symm

theorem mem_validProposedTimes (days : List Str) (slots : Dict Str)
    (ts : Str) (h : ts ∈ validProposedTimes days slots) :
    ∃ d ∈ days, ∃ t : Str, dlookup slots d = some t ∧ t ≠ [] ∧
      ts = slotKey d t := by
  rw [validProposedTimes, List.mem_filterMap] at h
  obtain ⟨d, hd, hmatch⟩ := h
  cases hlk : dlookup slots d with
  | none => simp [hlk] at hmatch
  | some t =>
      simp only [hlk] at hmatch
      by_cases ht : t = []
      · simp [ht] at hmatch
      · rw [if_pos ht] at hmatch
        exact ⟨d, hd, t, hlk, ht, (Option.some_inj.mp hmatch).symm⟩

end CollectorLemmas

theorem availabilityFormSubmit_availability (rec : ScheduleRecord)
    (days : List Str) (sels : Str → List Str) (unav : List Str) :
    (availabilityFormSubmit rec days sels unav).availability =
      dictUpdate rec.availability (newAvailabilityOf rec days sels unav) := rfl

theorem newAvailabilityOf_keys_nodup (rec : ScheduleRecord)
    (days : List Str) (sels : Str → List Str) (unav : List Str) :
    (dkeys (newAvailabilityOf rec days sels unav)).Nodup :=
  dkeys_nodup_dinsert _ _ _
    (dkeys_nodup_foldl_dinsert _ _ _ (by simp [dkeys]))

/-- The handler's result at a currently-derivable slot key is exactly
the submitted member list for that slot. -/
theorem availabilityFormSubmit_lookup_valid (rec : ScheduleRecord)
    (days : List Str) (sels : Str → List Str) (unav : List Str) (k : Str)
    (hk : k ∈ validProposedTimes days rec.proposed_slots) :
    dlookup (availabilityFormSubmit rec days sels unav).availability k =
      some (sels k) := by
  obtain ⟨d, _, t, _, _, hts⟩ := mem_validProposedTimes _ _ _ hk
  have hne : k ≠ UNAVAILABLE_KEY := fun h =>
    unavailable_ne_slotKey d t (h ▸ hts : UNAVAILABLE_KEY = slotKey d t)
  rw [availabilityFormSubmit_availability,
    dlookup_dictUpdate _ _ _ (newAvailabilityOf_keys_nodup rec days sels unav),
    newAvailabilityOf, dlookup_dinsert_ne _ _ _ _ hne,
    dlookup_foldl_dinsert, if_pos hk]

/-- The handler's result under `UNAVAILABLE_KEY` is exactly the
unavailable selections minus every attending member. -/
theorem availabilityFormSubmit_lookup_unavailable (rec : ScheduleRecord)
    (days : List Str) (sels : Str → List Str) (unav : List Str) :
    dlookup (availabilityFormSubmit rec days sels unav).availability
        UNAVAILABLE_KEY =
      some (unav.filter fun name =>
        ¬ name ∈ attendingMembers (validProposedTimes days rec.proposed_slots)
          sels) := by
  rw [availabilityFormSubmit_availability,
    dlookup_dictUpdate _ _ _ (newAvailabilityOf_keys_nodup rec days sels unav),
    newAvailabilityOf, dlookup_dinsert_self]

/-- C7 (counterexample): the per-slot multiselects let the same member
be submitted as attending several slots; after the merge, member `A`
sits under two distinct ordinary slot keys of the same record, so
"attending is single-choice per record per member" fails on the code. -/
theorem availability_member_under_two_slots :
    "A".data ∈ dgetD
        (availabilityFormSubmit exRec exDays exSelsAll []).availability
        (slotKey exDay1 "21:00".data) [] ∧
    "A".data ∈ dgetD
        (availabilityFormSubmit exRec exDays exSelsAll []).availability
        (slotKey exDay2 "20:00".data) [] ∧
    slotKey exDay1 "21:00".data ≠ slotKey exDay2 "20:00".data ∧
    slotKey exDay1 "21:00".data ≠ UNAVAILABLE_KEY ∧
    slotKey exDay2 "20:00".data ≠ UNAVAILABLE_KEY := by
  refine ⟨by decide, by decide, by decide, by decide, by decide⟩

/-- C7 (amended): a member may appear under several ordinary slot keys
(each per-slot multiselect is independent), but no member submitted as
attending any currently-derivable slot also ends up under the
`UNAVAILABLE` sentinel: the handler silently strips attending members
from the unavailable list rather than rejecting the submission. -/
theorem availabilityFormSubmit_attendance_precedence (rec : ScheduleRecord)
    (days : List Str) (sels : Str → List Str) (unav : List Str) (m k : Str)
    (hk : k ∈ validProposedTimes days rec.proposed_slots)
    (hm : m ∈ dgetD (availabilityFormSubmit rec days sels unav).availability
      k []) :
    m ∉ dgetD (availabilityFormSubmit rec days sels unav).availability
      UNAVAILABLE_KEY [] := by
  rw [dgetD, availabilityFormSubmit_lookup_valid rec days sels unav k hk,
    Option.getD_some] at hm
  rw [dgetD, availabilityFormSubmit_lookup_unavailable, Option.getD_some]
  intro hcontra
  rw [List.mem_filter] at hcontra
  have hatt : m ∈ attendingMembers (validProposedTimes days rec.proposed_slots)
      sels := mem_attendingMembers_of _ _ k m hk hm
  have := hcontra.2
  simp only [decide_eq_true_eq] at this
  exact this hatt

/-- C7 amended, witness: in the concrete scenario, member `A` attends
slot `exDay1 21:00` and is therefore not under `UNAVAILABLE`, even
though `A` was also submitted in the unavailable multiselect. -/
theorem availabilityFormSubmit_attendance_precedence_witness :
    slotKey exDay1 "21:00".data ∈
        validProposedTimes exDays exRec.proposed_slots ∧
    "A".data ∉ dgetD
        (availabilityFormSubmit exRec exDays exSelsAll ["A".data]).availability
        UNAVAILABLE_KEY [] :=
  ⟨by decide,
    availabilityFormSubmit_attendance_precedence exRec exDays exSelsAll
      ["A".data] "A".data (slotKey exDay1 "21:00".data) (by decide) (by decide)⟩

/-- C9 (counterexample): member `A` is submitted as attending three
slots of the same week — more than the claimed cap of 2 commitments —
yet the submission is not rejected: the handler writes the merge and
the stored record changes (no validation error path exists in the
code; the only cap-related code is the registration form's `次數`
selectbox offering `[1, 2]`). -/
theorem availability_cap_not_enforced :
    "A".data ∈ dgetD
        (availabilityFormSubmit exRec exDays exSelsAll []).availability
        (slotKey exDay1 "21:00".data) [] ∧
    "A".data ∈ dgetD
        (availabilityFormSubmit exRec exDays exSelsAll []).availability
        (slotKey exDay2 "20:00".data) [] ∧
    "A".data ∈ dgetD
        (availabilityFormSubmit exRec exDays exSelsAll []).availability
        (slotKey exDay3 "19:00".data) [] ∧
    availabilityFormSubmit exRec exDays exSelsAll [] ≠ exRec := by
  refine ⟨by decide, by decide, by decide, by decide⟩

/-- C9 (amended): no commitment cap is enforced anywhere in the
availability path: for every submission whatsoever, the handler
accepts and writes the merged availability — each currently-derivable
slot key holds exactly the submitted member list — and the other
record fields are untouched.  There is no rejection branch. -/
theorem availabilityFormSubmit_unconditional (rec : ScheduleRecord)
    (days : List Str) (sels : Str → List Str) (unav : List Str) (k : Str)
    (hk : k ∈ validProposedTimes days rec.proposed_slots) :
    dlookup (availabilityFormSubmit rec days sels unav).availability k =
        some (sels k) ∧
    (availabilityFormSubmit rec days sels unav).proposed_slots =
        rec.proposed_slots ∧
    (availabilityFormSubmit rec days sels unav).final_time = rec.final_time :=
  ⟨availabilityFormSubmit_lookup_valid rec days sels unav k hk, rfl, rfl⟩

/-- C9 amended, witness: the concrete over-cap submission is written. -/
theorem availabilityFormSubmit_unconditional_witness :
    slotKey exDay3 "19:00".data ∈
        validProposedTimes exDays exRec.proposed_slots ∧
    dlookup (availabilityFormSubmit exRec exDays exSelsAll []).availability
        (slotKey exDay3 "19:00".data) = some ["A".data] :=
  ⟨by decide,
    (availabilityFormSubmit_unconditional exRec exDays exSelsAll []
      (slotKey exDay3 "19:00".data) (by decide)).1⟩

section FinalizerLemmas

theorem isDigit_ofNat_mod (n : Nat) : (Char.ofNat (48 + n % 10)).isDigit = true := by
  have h : n % 10 < 10 := Nat.mod_lt _ (by norm_num)
  set k := n % 10 with hk
  interval_cases k <;> decide

theorem natDigitsAux_ne_nil (fuel n : Nat) : natDigitsAux fuel n ≠ [] := by
  cases fuel with
  | zero => simp [natDigitsAux]
  | succ fuel =>
      rw [natDigitsAux]
      split
      · simp
      · simp

theorem natDigitsAux_all_digit (fuel n : Nat) :
    ∀ c ∈ natDigitsAux fuel n, c.isDigit = true := by
  induction fuel generalizing n with
  | zero =>
      intro c hc
      rw [natDigitsAux, List.mem_singleton] at hc
      exact hc ▸ isDigit_ofNat_mod n
  | succ fuel ih =>
      intro c hc
      rw [natDigitsAux] at hc
      split at hc
      · rw [List.mem_singleton] at hc
        exact hc ▸ isDigit_ofNat_mod n
      · rcases List.mem_append.mp hc with h | h
        · exact ih _ _ h
        · rw [List.mem_singleton] at h
          exact h ▸ isDigit_ofNat_mod n

theorem natDigits_ne_nil (n : Nat) : natDigits n ≠ [] := natDigitsAux_ne_nil n n

theorem natDigits_all_digit (n : Nat) : ∀ c ∈ natDigits n, c.isDigit = true :=
  natDigitsAux_all_digit n n

theorem takeWhile_append_stop (p : Char → Bool) (l₁ : Str) (a : Char)
    (l₂ : Str) (ha : p a = false) :
    (l₁ ++ a :: l₂).takeWhile p = l₁.takeWhile p := by
  induction l₁ with
  | nil =>
      rw [List.nil_append, List.takeWhile_cons, ha]
      rfl
  | cons b bs ih =>
      rw [List.cons_append, List.takeWhile_cons, List.takeWhile_cons]
      cases p b <;> simp [ih]

theorem takeWhile_len_le (p : Char → Bool) (l : Str) :
    (l.takeWhile p).length ≤ l.length := by
  induction l with
  | nil => simp
  | cons b bs ih =>
      rw [List.takeWhile_cons]
      cases p b
      · simp
      · simpa using Nat.succ_le_succ ih

theorem takeWhile_of_all (p : Char → Bool) (l : Str)
    (h : ∀ c ∈ l, p c = true) : l.takeWhile p = l := by
  induction l with
  | nil => rfl
  | cons b bs ih =>
      have hb := h b (List.mem_cons_self _ _)
      have hbs := ih fun c hc => h c (List.mem_cons_of_mem _ hc)
      simp [List.takeWhile_cons, hb, hbs]

theorem dropWhile_append_of_ne_nil (p : Char → Bool) (l₁ l₂ : Str)
    (h : l₁.dropWhile p ≠ []) :
    (l₁ ++ l₂).dropWhile p = l₁.dropWhile p ++ l₂ := by
  rw [List.dropWhile_append, if_neg]
  simpa [List.isEmpty_iff] using h

theorem head_dropWhile_false (p : Char → Bool) (l : Str) (x : Char)
    (h : (l.dropWhile p).head? = some x) : p x = false := by
  induction l with
  | nil => cases h
  | cons b bs ih =>
      rw [List.dropWhile_cons] at h
      by_cases hb : p b = true
      · rw [if_pos hb] at h
        exact ih h
      · rw [if_neg hb] at h
        rw [List.head?_cons] at h
        cases h
        simpa using hb

theorem getLast?_drop_eq (l : Str) (i : Nat) (h : i < l.length) :
    (l.drop i).getLast? = l.getLast? := by
  induction l generalizing i with
  | nil => simp at h
  | cons a as ih =>
      cases i with
      | zero => rfl
      | succ i =>
          rw [List.length_cons, Nat.succ_lt_succ_iff] at h
          rw [List.drop_succ_cons, ih i h]
          cases as with
          | nil => simp at h
          | cons b bs => rw [List.getLast?_cons_cons]

theorem pstrip_eq_self_of (l : Str) (c₀ c₁ : Char) (rest : Str)
    (hcons : l = c₀ :: rest) (h0 : isPySpace c₀ = false)
    (hlast : l.getLast? = some c₁) (h1 : isPySpace c₁ = false) :
    pstrip l = l := by
  have hd : l.dropWhile isPySpace = l := by
    rw [hcons, List.dropWhile_cons, h0]
    rfl
  have hrev : l.reverse.head? = some c₁ := by
    rw [List.head?_reverse]
    exact hlast
  have hr : l.reverse.dropWhile isPySpace = l.reverse := by
    cases hrv : l.reverse with
    | nil => rfl
    | cons b bs =>
        rw [hrv, List.head?_cons] at hrev
        cases hrev
        rw [List.dropWhile_cons, h1]
        rfl
  rw [pstrip, hd, hr, List.reverse_reverse]

theorem getLast_not_space_of_pstrip_fixed (l : Str) (c : Char)
    (hfix : pstrip l = l) (hlast : l.getLast? = some c) :
    isPySpace c = false := by
  have hrev : ((l.dropWhile isPySpace).reverse.dropWhile isPySpace) =
      l.reverse := by
    have := congrArg List.reverse hfix
    rwa [pstrip, List.reverse_reverse] at this
  have hhead : l.reverse.head? = some c := by
    rw [List.head?_reverse]
    exact hlast
  rw [← hrev] at hhead
  exact head_dropWhile_false _ _ _ hhead

end FinalizerLemmas

section RegexLemmas

/-- Reduce `rmatchRest` once the `dropWhile` is known. -/
theorem rmatchRest_of_dropWhile_cons (r : Str) (c : Char) (r2 : Str)
    (h : r.dropWhile isPySpace = c :: r2) :
    rmatchRest r =
      (decide (c = '(') && decide (r2.takeWhile Char.isDigit ≠ []) &&
        decide (r2.drop (r2.takeWhile Char.isDigit).length = "人可)".data)) := by
  unfold rmatchRest
  rw [h]

/-- The true remainder `" (" ++ digits ++ "人可)"` matches. -/
theorem rmatchRest_true (dg : Str) (hdg : dg ≠ [])
    (hall : ∀ x ∈ dg, x.isDigit = true) :
    rmatchRest (' ' :: '(' :: (dg ++ "人可)".data)) = true := by
  have hdrop : (' ' :: '(' :: (dg ++ "人可)".data)).dropWhile isPySpace =
      '(' :: (dg ++ "人可)".data) := by
    rw [List.dropWhile_cons]
    rw [if_pos (by decide), List.dropWhile_cons, if_neg (by decide)]
  rw [rmatchRest_of_dropWhile_cons _ _ _ hdrop]
  have htake : (dg ++ "人可)".data).takeWhile Char.isDigit = dg := by
    rw [show ("人可)".data : Str) = '人' :: "可)".data from rfl,
      takeWhile_append_stop _ _ _ _ (by decide), takeWhile_of_all _ _ hall]
  rw [htake]
  simp [hdg, List.drop_left]

/-- No split inside a group candidate whose last character is not
whitespace can match the remainder pattern: the embedded `" ("` of the
real suffix leaves the remainder at least five characters longer than
`"人可)"`. -/
theorem rmatchRest_ufail (u : Str) (c : Char) (hlast : u.getLast? = some c)
    (hc : isPySpace c = false) (dg : Str) :
    rmatchRest (u ++ ' ' :: '(' :: (dg ++ "人可)".data)) = false := by
  have hu_ne : u ≠ [] := by
    intro h
    rw [h] at hlast
    cases hlast
  have hnotall : u.dropWhile isPySpace ≠ [] := by
    intro hall
    rw [List.dropWhile_eq_nil_iff] at hall
    have hmem : c ∈ u := List.mem_of_mem_getLast? hlast
    have := hall c hmem
    rw [hc] at this
    cases this
  obtain ⟨a, u'', hu'⟩ : ∃ a u'', u.dropWhile isPySpace = a :: u'' := by
    cases h : u.dropWhile isPySpace with
    | nil => exact absurd h hnotall
    | cons a u'' => exact ⟨a, u'', rfl⟩
  have hdrop : (u ++ ' ' :: '(' :: (dg ++ "人可)".data)).dropWhile isPySpace =
      a :: (u'' ++ ' ' :: '(' :: (dg ++ "人可)".data)) := by
    rw [dropWhile_append_of_ne_nil _ _ _ hnotall, hu', List.cons_append]
  rw [rmatchRest_of_dropWhile_cons _ _ _ hdrop]
  set r2 := u'' ++ ' ' :: '(' :: (dg ++ "人可)".data) with hr2
  have hds : (r2.takeWhile Char.isDigit).length ≤ u''.length := by
    rw [hr2, takeWhile_append_stop _ _ _ _ (by decide : Char.isDigit ' ' = false)]
    exact takeWhile_len_le _ _
  have hne3 : r2.drop (r2.takeWhile Char.isDigit).length ≠ "人可)".data := by
    intro heq
    have hlen := congrArg List.length heq
    rw [List.length_drop] at hlen
    have hr2len : r2.length = u''.length + (dg.length + 5) := by
      rw [hr2]
      simp [List.length_append]
      try omega
    simp only [show ("人可)".data : Str).length = 3 from rfl] at hlen
    omega
  rw [decide_eq_false hne3]
  simp

/-- Lemma: `rmatchAux` walks past every failing split and stops at the first
matching one, returning the accumulated prefix. -/
theorem rmatchAux_append (v rest : Str)
    (hfail : ∀ i : Nat, i < v.length → rmatchRest (v.drop i ++ rest) = false)
    (hsucc : rmatchRest rest = true) :
    ∀ pre : Str, rmatchAux pre (v ++ rest) = some (pre ++ v) := by
  induction v with
  | nil =>
      intro pre
      rw [List.nil_append, rmatchAux.eq_def, if_pos hsucc, List.append_nil]
  | cons c cs ih =>
      intro pre
      have h0 : rmatchRest (c :: (cs ++ rest)) = false := by
        have := hfail 0 (by simp)
        simpa using this
      rw [List.cons_append, rmatchAux.eq_def, h0]
      simp only [Bool.false_eq_true, if_false]
      have ih' := ih (fun i hi => by
        have := hfail (i + 1) (by simpa using Nat.succ_lt_succ hi)
        simpa using this) (pre ++ [c])
      rw [ih']
      simp

/-- The handler's regex applied to an option string
`ts ++ " (" ++ digits ++ "人可)"` recovers exactly `ts`, provided `ts`
does not end in whitespace. -/
theorem regexMatchGroup1_option (ts : Str) (c : Char)
    (hlast : ts.getLast? = some c) (hc : isPySpace c = false)
    (dg : Str) (hdg : dg ≠ []) (hall : ∀ x ∈ dg, x.isDigit = true) :
    regexMatchGroup1 (ts ++ ' ' :: '(' :: (dg ++ "人可)".data)) = some ts := by
  rw [regexMatchGroup1]
  have h := rmatchAux_append ts (' ' :: '(' :: (dg ++ "人可)".data))
    (fun i hi =>
      rmatchRest_ufail (ts.drop i) c (getLast?_drop_eq ts i hi ▸ hlast) hc dg)
    (rmatchRest_true dg hdg hall) []
  simpa using h

end RegexLemmas

section DictEqLemmas

theorem pyDictEq_lookup {α : Type} [DecidableEq α] (d₁ d₂ : Dict α)
    (h : pyDictEq d₁ d₂ = true) (k : Str) : dlookup d₁ k = dlookup d₂ k := by
  rw [pyDictEq, Bool.and_eq_true, Bool.and_eq_true] at h
  obtain ⟨⟨h1, h2⟩, h3⟩ := h
  rw [List.all_eq_true] at h2 h3
  by_cases hk : k ∈ dkeys d₁
  · simpa using h3 k hk
  · have hk2 : k ∉ dkeys d₂ := fun hm => hk (by simpa using h2 k hm)
    rw [(dlookup_eq_none_iff _ _).mpr hk, (dlookup_eq_none_iff _ _).mpr hk2]

theorem validProposedTimes_congr (days : List Str) (s₁ s₂ : Dict Str)
    (h : ∀ k, dlookup s₁ k = dlookup s₂ k) :
    validProposedTimes days s₁ = validProposedTimes days s₂ := by
  induction days with
  | nil => rfl
  | cons d ds ih =>
      rw [validProposedTimes, validProposedTimes] at ih ⊢
      rw [List.filterMap_cons, List.filterMap_cons, h d, ih]

end DictEqLemmas

/-- C6: the finalization invariant.  (a) Whatever option the leader
picks, the stored `final_time` is either empty or a slot key currently
derivable from `proposed_slots` (the regex recovers the slot key from
the option label).  (b) If a later slot edit actually runs (an edit
removing the finalized slot key always changes the proposed-slots
dict, and an unchanged dict derives the same slot keys) then
`final_time` is reset to the empty string; in particular finalize
followed by an edit that removes the chosen slot yields
`final_time = ""`.  Day labels are assumed non-empty and not starting
with whitespace, and proposed times stripped, as the captain form
produces them. -/
theorem finalTime_invariant (rec : ScheduleRecord) (days : List Str)
    (selected : Str)
    (hdays : ∀ d ∈ days, d ≠ [] ∧ isPySpace d.headI = false)
    (hstrip : ∀ d ∈ days,
      pstrip (dgetD rec.proposed_slots d []) = dgetD rec.proposed_slots d [])
    (hsel : selected ∈ optionsList rec days) :
    ((finalTimeSubmit rec selected).final_time = [] ∨
      (finalTimeSubmit rec selected).final_time ∈
        validProposedTimes days rec.proposed_slots) ∧
    (∀ inputs : Str → Str,
      (finalTimeSubmit rec selected).final_time ≠ [] →
      (finalTimeSubmit rec selected).final_time ∉
        validProposedTimes days (newProposedSlots days inputs) →
      (captainTimeSubmit (finalTimeSubmit rec selected) days inputs).final_time
        = []) := by
  have parta : (finalTimeSubmit rec selected).final_time = [] ∨
      (finalTimeSubmit rec selected).final_time ∈
        validProposedTimes days rec.proposed_slots := by
    rcases List.mem_cons.mp hsel with hndq | hmem
    · left
      show parseFinal selected = []
      rw [parseFinal, if_pos hndq]
    · obtain ⟨ts, hts, hfeq⟩ := List.mem_map.mp hmem
      obtain ⟨d, hdm, t, hlkt, htne, htsk⟩ :=
        mem_validProposedTimes days rec.proposed_slots ts hts
      have hstr : pstrip t = t := by
        have h := hstrip d hdm
        rwa [dgetD, hlkt, Option.getD_some] at h
      obtain ⟨c, hc⟩ : ∃ c, t.getLast? = some c := by
        cases hg : t.getLast? with
        | none => exact absurd (List.getLast?_eq_none_iff.mp hg) htne
        | some c => exact ⟨c, rfl⟩
      have hcns : isPySpace c = false :=
        getLast_not_space_of_pstrip_fixed t c hstr hc
      have hlast_ts : ts.getLast? = some c := by
        rw [htsk, slotKey]
        cases t with
        | nil => exact absurd rfl htne
        | cons t0 t' =>
            rw [List.getLast?_append_of_ne_nil _ (by simp),
              List.getLast?_cons_cons]
            exact hc
      obtain ⟨hdne, hdhead⟩ := hdays d hdm
      obtain ⟨c₀, d', hd'⟩ : ∃ c₀ d', d = c₀ :: d' := by
        cases d with
        | nil => exact absurd rfl hdne
        | cons c₀ d' => exact ⟨c₀, d', rfl⟩
      have hpar : '(' ∈ selected := by
        rw [← hfeq]
        simp
      have hnsel : selected ≠ notDecided := by
        intro h
        rw [h] at hpar
        exact absurd hpar (by decide)
      have hshape : selected =
          ts ++ ' ' :: '(' ::
            (natDigits (dgetD rec.availability ts []).length ++ "人可)".data) := by
        rw [← hfeq]
        simp
      have hregex : regexMatchGroup1 selected = some ts := by
        rw [hshape]
        exact regexMatchGroup1_option ts c hlast_ts hcns _
          (natDigits_ne_nil _) (natDigits_all_digit _)
      have hpstrip_ts : pstrip ts = ts := by
        refine pstrip_eq_self_of ts c₀ c (d' ++ ' ' :: t) ?_ ?_ hlast_ts hcns
        · rw [htsk, slotKey, hd', List.cons_append]
        · rw [hd'] at hdhead
          exact hdhead
      right
      show parseFinal selected ∈ validProposedTimes days rec.proposed_slots
      rw [parseFinal, if_neg hnsel, hregex]
      show pstrip ts ∈ validProposedTimes days rec.proposed_slots
      rw [hpstrip_ts]
      exact hts
  refine ⟨parta, fun inputs hne hnot => ?_⟩
  by_cases hdq : pyDictEq (newProposedSlots days inputs) rec.proposed_slots = true
  · exfalso
    have hvp : validProposedTimes days (newProposedSlots days inputs) =
        validProposedTimes days rec.proposed_slots :=
      validProposedTimes_congr _ _ _ (pyDictEq_lookup _ _ hdq)
    rcases parta with h | h
    · exact hne h
    · exact hnot (hvp ▸ h)
  · rw [Bool.not_eq_true] at hdq
    rw [captainTimeSubmit]
    simp only [show (finalTimeSubmit rec selected).proposed_slots =
      rec.proposed_slots from rfl, hdq, Bool.false_eq_true, if_false]

/-- C6, witness: finalize on the concrete record with the option label
of slot `星期四 (01-01) 21:00` produces a `final_time` that is a
currently-derivable slot key. -/
theorem finalTime_invariant_witness :
    ("星期四 (01-01) 21:00 (0人可)".data ∈ optionsList exRec exDays) ∧
    ((finalTimeSubmit exRec "星期四 (01-01) 21:00 (0人可)".data).final_time
        = [] ∨
      (finalTimeSubmit exRec "星期四 (01-01) 21:00 (0人可)".data).final_time ∈
        validProposedTimes exDays exRec.proposed_slots) :=
  ⟨by decide,
    (finalTime_invariant exRec exDays "星期四 (01-01) 21:00 (0人可)".data
      (by decide) (by decide) (by decide)).1⟩

/-- C1, witness: with only `exDay2`'s time changed, the untouched
`exDay1` slot keeps `A`'s response and the changed `exDay2` slot is
reset to the empty member list. -/
theorem reconcile_single_change_witness :
    dgetD exRec.proposed_slots exDay2 [] ≠ dgetD exNewSlots exDay2 [] ∧
    dlookup (reconcile exDays exRec.proposed_slots exNewSlots exCur)
        (slotKey exDay1 "21:00".data)
      = some (dgetD exCur (slotKey exDay1 "21:00".data) []) ∧
    dlookup (reconcile exDays exRec.proposed_slots exNewSlots exCur)
        (slotKey exDay2 "22:00".data) = some [] :=
  ⟨by decide,
    (reconcile_single_change exDays 11 exRec.proposed_slots exNewSlots exCur
      exDay2 (by decide) (by decide) (by decide) (by decide)).2.1 exDay1
      (by decide) (by decide) (by decide),
    (reconcile_single_change exDays 11 exRec.proposed_slots exNewSlots exCur
      exDay2 (by decide) (by decide) (by decide) (by decide)).2.2.1
      (by decide)⟩

/-- C3, witness: retyping the stored times verbatim is a no-op. -/
theorem captainTimeSubmit_noop_witness :
    pyDictEq (newProposedSlots exDays exInputsSame) exRec.proposed_slots
        = true ∧
    captainTimeSubmit exRec exDays exInputsSame = exRec :=
  ⟨by decide, captainTimeSubmit_noop exRec exDays exInputsSame (by decide)⟩

/-- C10, witness: the edit changes only `exDay2`, so the finalized
`exDay1 21:00` slot is still derivable from the new slots — yet
`final_time` is reset to the empty string. -/
theorem captainTimeSubmit_resets_final_time_witness :
    pyDictEq (newProposedSlots exDays exInputsChange)
        exRecFinal.proposed_slots = false ∧
    exRecFinal.final_time ∈
        validProposedTimes exDays (newProposedSlots exDays exInputsChange) ∧
    (captainTimeSubmit exRecFinal exDays exInputsChange).final_time = [] :=
  ⟨by decide, by decide,
    captainTimeSubmit_resets_final_time exRecFinal exDays exInputsChange
      (by decide)⟩

/-- C4 (counterexample): `exRawDoc` holds one well-formed team, one
team whose legacy `schedule` field is malformed, and one registered
member.  The malformed team makes the whole `try` body raise, and the
`except` handler replaces the entire document — teams *and* members —
with the empty defaults; degradation is not scoped to the bad record. -/
theorem load_data_drops_whole_document :
    loadDataE (some exRawDoc) exThisW exNextW = Except.error () ∧
    load_data (some exRawDoc) exThisW exNextW = emptyDoc ∧
    dlookup (objFields exRawDoc) "members".data
      = some (Json.obj [("A".data, Json.obj [])]) ∧
    (∃ tj, processTeam exThisW exNextW exGoodTeam = Except.ok tj) :=
  ⟨rfl, rfl, rfl, ⟨_, rfl⟩⟩

/-- C4 (amended): `load_data` itself never raises — every exception in
the `try` body is caught — but the recovery is global, not per-record:
whenever any part of the body raises, the whole document is replaced
by the empty default `{"teams": [], "members": {}}`. -/
theorem load_data_error_yields_empty (raw : Option Json) (thisW nextW : Str)
    (e : Unit) (h : loadDataE raw thisW nextW = Except.error e) :
    load_data raw thisW nextW = emptyDoc := by
  unfold load_data
  rw [h]

/-- C4 amended, witness: the concrete malformed document degrades to
the empty default. -/
theorem load_data_error_yields_empty_witness :
    loadDataE (some exRawDoc) exThisW exNextW = Except.error () ∧
    load_data (some exRawDoc) exThisW exNextW = emptyDoc :=
  ⟨rfl, load_data_error_yields_empty (some exRawDoc) exThisW exNextW () rfl⟩

section MigratorDictLemmas

variable {α : Type}

theorem dlookup_append_of_isSome (d l : Dict α) (k : Str)
    (h : (dlookup d k).isSome = true) : dlookup (d ++ l) k = dlookup d k := by
  induction d with
  | nil => simp [dlookup] at h
  | cons hd tl ih =>
      obtain ⟨k', v'⟩ := hd
      by_cases hk : k' = k
      · rw [List.cons_append, dlookup, if_pos hk, dlookup, if_pos hk]
      · rw [List.cons_append, dlookup, if_neg hk, dlookup, if_neg hk]
        rw [dlookup, if_neg hk] at h
        exact ih h

theorem dlookup_append_of_none (d l : Dict α) (k : Str)
    (h : dlookup d k = none) : dlookup (d ++ l) k = dlookup l k := by
  induction d with
  | nil => rfl
  | cons hd tl ih =>
      obtain ⟨k', v'⟩ := hd
      by_cases hk : k' = k
      · rw [dlookup, if_pos hk] at h
        cases h
      · rw [dlookup, if_neg hk] at h
        rw [List.cons_append, dlookup, if_neg hk]
        exact ih h

theorem dlookup_dsetdefault_self (d : Dict α) (k : Str) (v : α) :
    dlookup (dsetdefault d k v) k = some ((dlookup d k).getD v) := by
  unfold dsetdefault
  cases h : dlookup d k with
  | some w => rw [h, Option.getD_some]
  | none =>
      rw [dlookup_append_of_none _ _ _ h, dlookup, if_pos rfl, Option.getD_none]

theorem dlookup_dsetdefault_ne (d : Dict α) (k k' : Str) (v : α)
    (h : k' ≠ k) : dlookup (dsetdefault d k v) k' = dlookup d k' := by
  unfold dsetdefault
  cases hl : dlookup d k with
  | some w => rfl
  | none =>
      cases hl' : dlookup d k' with
      | some w =>
          rw [dlookup_append_of_isSome _ _ _ (by rw [hl']; rfl), hl']
      | none =>
          rw [dlookup_append_of_none _ _ _ hl', dlookup,
            if_neg fun hh => h hh.symm, dlookup]

theorem dlookup_dsetdefault_of_some (d : Dict α) (k f : Str) (v w : α)
    (h : dlookup d f = some w) :
    dlookup (dsetdefault d k v) f = some w := by
  unfold dsetdefault
  cases hl : dlookup d k with
  | some _ => exact h
  | none => rw [dlookup_append_of_isSome _ _ _ (by rw [h]; rfl), h]

theorem dlookup_dremove_ne (d : Dict α) (k k' : Str) (h : k' ≠ k) :
    dlookup (dremove d k) k' = dlookup d k' := by
  induction d with
  | nil => rfl
  | cons hd tl ih =>
      obtain ⟨k₀, v₀⟩ := hd
      by_cases h0 : k₀ = k
      · subst h0
        rw [dremove, if_pos rfl, dlookup, if_neg fun hh => h hh.symm]
      · rw [dremove, if_neg h0, dlookup, dlookup]
        by_cases h1 : k₀ = k'
        · rw [if_pos h1, if_pos h1]
        · rw [if_neg h1, if_neg h1, ih]

theorem bossRemark_lookup_ne (tf : Dict Json) (k : Str)
    (h1 : k ≠ "boss_times".data) (h2 : k ≠ "team_remark".data) :
    dlookup (bossRemark tf) k = dlookup tf k := by
  unfold bossRemark
  cases hbt : dlookup tf "boss_times".data with
  | none => exact dlookup_dsetdefault_ne _ _ _ _ h2
  | some bt =>
      cases htr : dlookup tf "team_remark".data with
      | none =>
          rw [dlookup_dinsert_ne _ _ _ _ h2, dlookup_dremove_ne _ _ _ h1]
      | some _ => exact dlookup_dsetdefault_ne _ _ _ _ h2

end MigratorDictLemmas

section EnsureWeekLemmas

theorem ensureWeek_ok (managed : Dict Json) (wk : Str) (m' : Dict Json)
    (h : ensureWeek managed wk = Except.ok m') :
    (∀ k, k ≠ wk → dlookup m' k = dlookup managed k) ∧
    (∃ rf', dlookup m' wk = some (.obj rf') ∧
      (dlookup rf' "proposed_slots".data).isSome = true ∧
      (dlookup rf' "availability".data).isSome = true ∧
      (dlookup rf' "final_time".data).isSome = true) ∧
    (∀ k, k ∈ dkeys m' ↔ k = wk ∨ k ∈ dkeys managed) ∧
    ((dkeys managed).Nodup → (dkeys m').Nodup) := by
  unfold ensureWeek at h
  cases hl : dlookup managed wk with
  | none =>
      rw [hl] at h
      cases h
      refine ⟨fun k hk => dlookup_dinsert_ne _ _ _ _ hk,
        ⟨objFields defaultScheduleJson, ?_, by decide, by decide, by decide⟩,
        fun k => mem_dkeys_dinsert _ _ _ _,
        fun hn => dkeys_nodup_dinsert _ _ _ hn⟩
      rw [dlookup_dinsert_self]
      rfl
  | some v =>
      rw [hl] at h
      cases v with
      | obj rf =>
          cases h
          refine ⟨fun k hk => dlookup_dinsert_ne _ _ _ _ hk,
            ⟨_, by rw [dlookup_dinsert_self], ?_, ?_, ?_⟩,
            fun k => mem_dkeys_dinsert _ _ _ _,
            fun hn => dkeys_nodup_dinsert _ _ _ hn⟩
          · rw [dlookup_dsetdefault_ne _ _ _ _ (by decide),
              dlookup_dsetdefault_ne _ _ _ _ (by decide),
              dlookup_dsetdefault_self]
            rfl
          · rw [dlookup_dsetdefault_ne _ _ _ _ (by decide),
              dlookup_dsetdefault_self]
            rfl
          · rw [dlookup_dsetdefault_self]
            rfl
      | null => cases h
      | bool b => cases h
      | num n => cases h
      | str s => cases h
      | arr elems => cases h

theorem ensureWeek_backfill (managed : Dict Json) (wk : Str)
    (rf m' : Dict Json) (hlk : dlookup managed wk = some (.obj rf))
    (h : ensureWeek managed wk = Except.ok m') :
    ∃ rf', dlookup m' wk = some (.obj rf') ∧
      (∀ f v, dlookup rf f = some v → dlookup rf' f = some v) ∧
      (dlookup rf "proposed_slots".data = none →
        dlookup rf' "proposed_slots".data = some (.obj [])) ∧
      (dlookup rf "availability".data = none →
        dlookup rf' "availability".data =
          some (.obj [(UNAVAILABLE_KEY, .arr [])])) ∧
      (dlookup rf "final_time".data = none →
        dlookup rf' "final_time".data = some (.str [])) := by
  unfold ensureWeek at h
  rw [hlk] at h
  cases h
  refine ⟨_, by rw [dlookup_dinsert_self], ?_, ?_, ?_, ?_⟩
  · intro f v hv
    exact dlookup_dsetdefault_of_some _ _ _ _ _
      (dlookup_dsetdefault_of_some _ _ _ _ _
        (dlookup_dsetdefault_of_some _ _ _ _ _ hv))
  · intro hnone
    rw [dlookup_dsetdefault_ne _ _ _ _ (by decide),
      dlookup_dsetdefault_ne _ _ _ _ (by decide),
      dlookup_dsetdefault_self, hnone]
    rfl
  · intro hnone
    rw [dlookup_dsetdefault_ne _ _ _ _ (by decide),
      dlookup_dsetdefault_self,
      dlookup_dsetdefault_ne _ _ _ _ (by decide), hnone]
    rfl
  · intro hnone
    rw [dlookup_dsetdefault_self,
      dlookup_dsetdefault_ne _ _ _ _ (by decide),
      dlookup_dsetdefault_ne _ _ _ _ (by decide), hnone]
    rfl

theorem ensureWeek_default (managed : Dict Json) (wk : Str) (m' : Dict Json)
    (hlk : dlookup managed wk = none)
    (h : ensureWeek managed wk = Except.ok m') :
    dlookup m' wk = some defaultScheduleJson := by
  unfold ensureWeek at h
  rw [hlk] at h
  cases h
  rw [dlookup_dinsert_self]

end EnsureWeekLemmas

section ProcessTeamLemmas

theorem dkeys_filter_nodup (cs : Dict Json) (p : Str × Json → Bool)
    (h : (dkeys cs).Nodup) : (dkeys (cs.filter p)).Nodup :=
  List.Nodup.sublist ((List.filter_sublist cs).map Prod.fst) h

theorem mem_dkeys_filter_valid (cs : Dict Json) (thisW nextW k : Str)
    (h : k ∈ dkeys (cs.filter fun kv =>
      decide (kv.1 = thisW) || decide (kv.1 = nextW))) :
    k = thisW ∨ k = nextW := by
  obtain ⟨kv, hkv, rfl⟩ := List.mem_map.mp h
  have := (List.mem_filter.mp hkv).2
  simpa using this

/-- What `processTeamCore` guarantees about the produced team: its
`schedules` object has exactly the two valid week keys, each mapped to
an object carrying all three record fields. -/
theorem processTeamCore_ok (thisW nextW : Str) (tf₁ : Dict Json) (tj' : Json)
    (hW : thisW ≠ nextW)
    (hwf : (dkeys (objFields
      ((dlookup tf₁ "schedules".data).getD (.obj [])))).Nodup)
    (h : processTeamCore thisW nextW tf₁ = Except.ok tj') :
    ∃ sf : Dict Json,
      dlookup (objFields tj') "schedules".data = some (.obj sf) ∧
      (dkeys sf).Nodup ∧
      (∀ k, k ∈ dkeys sf ↔ (k = thisW ∨ k = nextW)) ∧
      sf.length = 2 ∧
      (∀ k ∈ dkeys sf, ∃ rf : Dict Json,
        dlookup sf k = some (.obj rf) ∧
        (dlookup rf "proposed_slots".data).isSome = true ∧
        (dlookup rf "availability".data).isSome = true ∧
        (dlookup rf "final_time".data).isSome = true) := by
  rw [processTeamCore] at h
  simp only [dlookup_dsetdefault_self, Option.getD_some] at h
  split at h
  case _ cs heq =>
      rw [heq] at hwf
      simp only [objFields] at hwf
      split at h
      case _ e he₁ => cases h
      case _ m₁ he₁ =>
          split at h
          case _ e he₂ => cases h
          case _ m₂ he₂ =>
              cases h
              obtain ⟨e₁ne, e₁rec, e₁mem, e₁nd⟩ := ensureWeek_ok _ _ _ he₁
              obtain ⟨e₂ne, e₂rec, e₂mem, e₂nd⟩ := ensureWeek_ok _ _ _ he₂
              have hmem : ∀ k, k ∈ dkeys m₂ ↔ (k = thisW ∨ k = nextW) := by
                intro k
                rw [e₂mem k, e₁mem k]
                constructor
                · rintro (rfl | rfl | hmem)
                  · exact Or.inr rfl
                  · exact Or.inl rfl
                  · exact mem_dkeys_filter_valid _ _ _ _ hmem
                · rintro (rfl | rfl)
                  · exact Or.inr (Or.inl rfl)
                  · exact Or.inl rfl
              have hnd : (dkeys m₂).Nodup :=
                e₂nd (e₁nd (dkeys_filter_nodup _ _ hwf))
              refine ⟨m₂, ?_, hnd, hmem, ?_, ?_⟩
              · simp only [objFields]
                rw [bossRemark_lookup_ne _ _ (by decide) (by decide),
                  dlookup_dinsert_self]
              · have hfin : (dkeys m₂).toFinset = {thisW, nextW} := by
                  ext k
                  simp [hmem k]
                have hcard : (dkeys m₂).toFinset.card = 2 := by
                  rw [hfin, Finset.card_insert_of_not_mem (by simp [hW]),
                    Finset.card_singleton]
                have hlen := List.toFinset_card_of_nodup hnd
                have hlen2 : (dkeys m₂).length = 2 := by omega
                simpa [dkeys] using hlen2
              · intro k hk
                rcases (hmem k).mp hk with rfl | rfl
                · obtain ⟨rf', hrf', h1, h2, h3⟩ := e₁rec
                  exact ⟨rf', (e₂ne k hW).trans hrf', h1, h2, h3⟩
                · exact e₂rec
  case _ x hne => cases h

theorem processTeam_ok (thisW nextW : Str) (team tj' : Json)
    (hW : thisW ≠ nextW)
    (hwf : (dkeys (teamSchedFields team)).Nodup)
    (h : processTeam thisW nextW team = Except.ok tj') :
    ∃ sf : Dict Json,
      dlookup (objFields tj') "schedules".data = some (.obj sf) ∧
      (dkeys sf).Nodup ∧
      (∀ k, k ∈ dkeys sf ↔ (k = thisW ∨ k = nextW)) ∧
      sf.length = 2 ∧
      (∀ k ∈ dkeys sf, ∃ rf : Dict Json,
        dlookup sf k = some (.obj rf) ∧
        (dlookup rf "proposed_slots".data).isSome = true ∧
        (dlookup rf "availability".data).isSome = true ∧
        (dlookup rf "final_time".data).isSome = true) := by
  cases team with
  | obj tf₀ =>
      rw [processTeam] at h
      split at h
      case _ oldSched hs hss =>
          split at h
          case _ osf =>
              refine processTeamCore_ok _ _ _ _ hW ?_ h
              rw [dlookup_dinsert_self]
              simp only [Option.getD_some, objFields, dkeys, List.map_cons,
                List.map_nil]
              exact List.nodup_singleton _
          case _ x hx => cases h
      case _ hcatch => exact processTeamCore_ok _ _ _ _ hW hwf h
  | null => simp [processTeam] at h
  | bool b => simp [processTeam] at h
  | num n => simp [processTeam] at h
  | str s => simp [processTeam] at h
  | arr elems => simp [processTeam] at h

theorem processTeams_ok (thisW nextW : Str) (ts ts' : List Json)
    (h : processTeams thisW nextW ts = Except.ok ts') :
    ∀ tj' ∈ ts', ∃ tj ∈ ts, processTeam thisW nextW tj = Except.ok tj' := by
  induction ts generalizing ts' with
  | nil =>
      cases h
      intro tj' h'
      simp at h'
  | cons t rest ih =>
      rw [processTeams] at h
      split at h
      case _ e he => cases h
      case _ t' ht' =>
          split at h
          case _ e he => cases h
          case _ rest' hrest' =>
              cases h
              intro tj' hmem
              rcases List.mem_cons.mp hmem with rfl | hmem
              · exact ⟨t, List.mem_cons_self _ _, ht'⟩
              · obtain ⟨tj, htj, hok⟩ := ih _ hrest' tj' hmem
                exact ⟨tj, List.mem_cons_of_mem _ htj, hok⟩

theorem loadDataE_ok_teams (raw : Json) (thisW nextW : Str) (doc : Json)
    (h : loadDataE (some raw) thisW nextW = Except.ok doc) :
    ∃ ts', processTeams thisW nextW (rawTeams raw) = Except.ok ts' ∧
      teamsOf doc = ts' := by
  cases raw with
  | obj df =>
      rw [loadDataE] at h
      have hteams : dlookup (dsetdefault (dsetdefault df "teams".data (.arr []))
          "members".data (.obj [])) "teams".data
          = some ((dlookup df "teams".data).getD (.arr [])) := by
        rw [dlookup_dsetdefault_ne _ _ _ _ (by decide), dlookup_dsetdefault_self]
      split at h
      case _ ts hts =>
          rw [hteams] at hts
          have hts' : (dlookup df "teams".data).getD (.arr []) = .arr ts :=
            Option.some_inj.mp hts
          have hraw : rawTeams (.obj df) = ts := by
            rw [rawTeams]
            cases hdt : dlookup df "teams".data with
            | none =>
                rw [hdt, Option.getD_none] at hts'
                cases hts'
                rfl
            | some v =>
                rw [hdt, Option.getD_some] at hts'
                cases hts'
                rfl
          split at h
          case _ e he => cases h
          case _ ts' hts'' =>
              cases h
              refine ⟨ts', hraw ▸ hts'', ?_⟩
              simp only [teamsOf, objFields, dlookup_dinsert_self]
      case _ hcatch => cases h
  | null => simp [loadDataE] at h
  | bool b => simp [loadDataE] at h
  | num n => simp [loadDataE] at h
  | str s => simp [loadDataE] at h
  | arr elems => simp [loadDataE] at h

/-- C8: for every raw document the migrator's `try` body accepts
(with well-formed input dicts — key lists without duplicates — and two
distinct required week keys), every team of the produced document
carries a `schedules` object with *exactly* the two required week keys
and each week's record an object with all three fields present.
Moreover the backfill step (`ensureWeek`) synthesizes the default
record `{proposed_slots: {}, availability: {UNAVAILABLE: []},
final_time: ""}` for a missing week, and for a present record fills
exactly the missing sub-fields with their defaults while preserving
every field that was present. -/
theorem load_data_two_week_schedules (raw : Json) (thisW nextW : Str)
    (doc : Json) (hW : thisW ≠ nextW)
    (hwf : ∀ tj ∈ rawTeams raw, (dkeys (teamSchedFields tj)).Nodup)
    (h : loadDataE (some raw) thisW nextW = Except.ok doc) :
    (∀ tj' ∈ teamsOf doc, ∃ sf : Dict Json,
      dlookup (objFields tj') "schedules".data = some (.obj sf) ∧
      (dkeys sf).Nodup ∧
      (∀ k, k ∈ dkeys sf ↔ (k = thisW ∨ k = nextW)) ∧
      sf.length = 2 ∧
      (∀ k ∈ dkeys sf, ∃ rf : Dict Json,
        dlookup sf k = some (.obj rf) ∧
        (dlookup rf "proposed_slots".data).isSome = true ∧
        (dlookup rf "availability".data).isSome = true ∧
        (dlookup rf "final_time".data).isSome = true)) ∧
    (∀ managed wk (rf m' : Dict Json),
      dlookup managed wk = some (.obj rf) →
      ensureWeek managed wk = Except.ok m' →
      ∃ rf', dlookup m' wk = some (.obj rf') ∧
        (∀ f v, dlookup rf f = some v → dlookup rf' f = some v) ∧
        (dlookup rf "proposed_slots".data = none →
          dlookup rf' "proposed_slots".data = some (.obj [])) ∧
        (dlookup rf "availability".data = none →
          dlookup rf' "availability".data =
            some (.obj [(UNAVAILABLE_KEY, .arr [])])) ∧
        (dlookup rf "final_time".data = none →
          dlookup rf' "final_time".data = some (.str []))) ∧
    (∀ managed wk (m' : Dict Json), dlookup managed wk = none →
      ensureWeek managed wk = Except.ok m' →
      dlookup m' wk = some defaultScheduleJson) := by
  refine ⟨?_, fun managed wk rf m' => ensureWeek_backfill managed wk rf m',
    fun managed wk m' => ensureWeek_default managed wk m'⟩
  intro tj' htj'
  obtain ⟨ts', hts', hteams⟩ := loadDataE_ok_teams raw thisW nextW doc h
  rw [hteams] at htj'
  obtain ⟨tj, htj, hok⟩ := processTeams_ok _ _ _ _ hts' tj' htj'
  exact processTeam_ok _ _ _ _ hW (hwf tj htj) hok

end ProcessTeamLemmas

/-- C8, witness: on the concrete well-formed document the migrator
succeeds and every produced team's schedule map has exactly the two
required week keys with complete records. -/
theorem load_data_two_week_schedules_witness :
    exThisW ≠ exNextW ∧
    (∀ tj' ∈ teamsOf (load_data (some exRawDoc2) exThisW exNextW),
      ∃ sf : Dict Json,
        dlookup (objFields tj') "schedules".data = some (.obj sf) ∧
        (dkeys sf).Nodup ∧
        (∀ k, k ∈ dkeys sf ↔ (k = exThisW ∨ k = exNextW)) ∧
        sf.length = 2 ∧
        (∀ k ∈ dkeys sf, ∃ rf : Dict Json,
          dlookup sf k = some (.obj rf) ∧
          (dlookup rf "proposed_slots".data).isSome = true ∧
          (dlookup rf "availability".data).isSome = true ∧
          (dlookup rf "final_time".data).isSome = true)) :=
  ⟨by decide,
    (load_data_two_week_schedules exRawDoc2 exThisW exNextW
      (load_data (some exRawDoc2) exThisW exNextW)
      (by decide) (by decide) rfl).1⟩

end MsTeam

